import Mathlib

/-!
# rkdisk: tape container codec and text transcoder

A shallow embedding of `rkdisk.cpp` (the `.rk` tape container writer
`convertToRk`, its checksum `addToRkCs` / `calcRkCs`, and the text
transcoder `decodeCP` with its table `koi8_to`), followed by the
properties proved about it.

Conventions of the embedding:

* a `uint8_t` / `uint16_t` value is a `Nat`; every store into such a variable
  is written with an explicit `% 256` / `% 65536`;
* an `int` is an `Int`; `size_t` arithmetic is taken modulo `2 ^ 64`;
* a `vector<uint8_t>` is a `List Nat`;
* a read outside a buffer or outside the table `koi8_to` has no defined
  result in C++; the embedded function returns `none` there.
-/

namespace Rkdisk

/-! ## Checksum -/

/-- The body of the `for` loop of `addToRkCs`:
`baseCs += data[i]; baseCs += (data[i] << 8);` on a `uint16_t`. -/
def csStep (baseCs b : Nat) : Nat :=
  ((baseCs + b) % 65536 + (b <<< 8)) % 65536

/-- The `for (int i = 0; i < len; i++)` loop of `addToRkCs`, started at index
`i` with `k` iterations left.  `none` when `data[i]` is read outside the
buffer. -/
def addToRkCsLoop (data : List Nat) : Nat → Nat → Nat → Option Nat
  | _, 0, baseCs => some baseCs
  | i, k + 1, baseCs =>
    match data[i]? with
    | none => none
    | some b => addToRkCsLoop data (i + 1) k (csStep baseCs b)

/-- Read `data[i]` for an `int` index; `none` outside the buffer. -/
def readAt (data : List Nat) (i : Int) : Option Nat :=
  if 0 ≤ i then data[i.toNat]? else none

/-- The function `addToRkCs(baseCs, data, len, lastChunk)`. -/
def addToRkCs (baseCs : Nat) (data : List Nat) (len : Int) (lastChunk : Bool) : Option Nat :=
  let len1 : Int := if lastChunk then len - 1 else len
  match addToRkCsLoop data 0 len1.toNat baseCs with
  | none => none
  | some cs =>
    if lastChunk then
      match readAt data len1 with
      | none => none
      | some l => some (((cs &&& 0xff00) ||| ((cs + l) &&& 0xff)) % 65536)
    else some cs

/-- Conversion of a `size_t` value to `int` (two's complement, 32 bits). -/
def toInt32 (u : Nat) : Int :=
  if u % 2 ^ 32 < 2 ^ 31 then ((u % 2 ^ 32 : Nat) : Int) else ((u % 2 ^ 32 : Nat) : Int) - 2 ^ 32

/-- The function `calcRkCs(data)`: `addToRkCs(0, data.data(), data.size(), true)`;
`data.size()` is a `size_t` and the parameter `len` an `int`. -/
def calcRkCs (data : List Nat) : Option Nat :=
  addToRkCs 0 data (toInt32 data.length) true

/-! ## Tape container -/

/-- The initialiser `int endAddr = loadAddr + body.size() - 1;`: the sum is
formed in `size_t` (modulo `2 ^ 64`) and then converted to `int`. -/
def endAddrOf (loadAddr size : Nat) : Int :=
  toInt32 ((loadAddr + size + (2 ^ 64 - 1)) % 2 ^ 64)

/-- The four bytes of `RkHeader` as `convertToRk` fills them
(`loadAddrHi`, `loadAddrLo`, `endAddrHi`, `endAddrLo`). -/
def rkHeader (loadAddr : Nat) (endAddr : Int) : List Nat :=
  [(loadAddr >>> 8) % 256, (loadAddr &&& 0xFF) % 256,
   ((endAddr >>> 8) % 256).toNat, ((Int.land endAddr 0xFF) % 256).toNat]

/-- The five bytes of `RkFooter` as `convertToRk` fills them
(`nullByte1`, `nullByte2`, `syncByte`, `csHi`, `csLo`). -/
def rkFooter (cs : Nat) : List Nat :=
  [0, 0, 0xE6, (cs >>> 8) % 256, (cs &&& 0xFF) % 256]

/-- The behaviour of the output file: whether `f.fail()` holds after the
`ofstream` is constructed, and whether it holds after the three writes. -/
structure Sink where
  openFails : Bool
  writeFails : Bool
  deriving DecidableEq

/-- The observable result of a call that writes a file: the returned
`bool`, and the bytes handed to `write` in order (`none` when the output
file was not opened). -/
structure RkResult where
  ret : Bool
  written : Option (List Nat)
  deriving DecidableEq

/-- The function `convertToRk(body, loadAddr, outputFile)`.  `none` when
the call reads outside `body` (inside `calcRkCs`). -/
def convertToRk (body : List Nat) (loadAddr : Nat) (sink : Sink) : Option RkResult :=
  let endAddr := endAddrOf loadAddr body.length
  let header := rkHeader loadAddr endAddr
  match calcRkCs body with
  | none => none
  | some cs =>
    let footer := rkFooter cs
    if sink.openFails then some ⟨false, none⟩
    else if sink.writeFails then some ⟨false, some (header ++ body ++ footer)⟩
    else some ⟨true, some (header ++ body ++ footer)⟩

/-! ## Text transcoder -/

/-- The constant `CP_KOI8`. -/
def CP_KOI8 : Int := 0
/-- The constant `CP_WIN1251`. -/
def CP_WIN1251 : Int := 1
/-- The constant `CP_UTF8`. -/
def CP_UTF8 : Int := 2

/-- The table `koi8_to[CP_MAX_ID][31]`. -/
def koi8_to : List (List Nat) :=
  [ [ 0xDE, 0xC0, 0xC1, 0xD6, 0xC4, 0xC5, 0xD4, 0xC3,
      0xD5, 0xC8, 0xC9, 0xCA, 0xCB, 0xCC, 0xCD, 0xCE,
      0xCF, 0xDF, 0xD0, 0xD1, 0xD2, 0xD3, 0xC6, 0xC2,
      0xDC, 0xDB, 0xC7, 0xD8, 0xDD, 0xD9, 0xD7 ],
    [ 0xD0AE, 0xD090, 0xD091, 0xD0A6, 0xD094, 0xD095, 0xD0A4, 0xD093,
      0xD0A5, 0xD098, 0xD099, 0xD09A, 0xD09B, 0xD09C, 0xD09D, 0xD09E,
      0xD09F, 0xD0AF, 0xD0A0, 0xD0A1, 0xD0A2, 0xD0A3, 0xD096, 0xD092,
      0xD0AC, 0xD0AB, 0xD097, 0xD0A8, 0xD0AD, 0xD0A9, 0xD0A7 ] ]

/-- The indexing `koi8_to[row][col]` with `int` indices; `none` when either
index is outside the `2 x 31` table. -/
def koi8_to_at (row col : Int) : Option Nat :=
  if 0 ≤ row ∧ 0 ≤ col then
    match koi8_to[row.toNat]? with
    | none => none
    | some r => r[col.toNat]?
  else none

/-- The `for` loop of `decodeCP` over the remaining input, with the output
`dst` built so far.  `win32` tells whether the `WIN32` branch of the
`#if` is compiled in.  `none` when `koi8_to` is indexed outside the table. -/
def decodeCPLoop (win32 : Bool) (codePage : Int) : List Nat → List Nat → Option (List Nat)
  | [], dst => some dst
  | ch :: rest, dst =>
    if ch = 0x0d then
      decodeCPLoop win32 codePage rest ((if win32 then dst ++ [ch] else dst) ++ [0x0a])
    else if ch < 0x60 ∨ ch = 0x7f then
      decodeCPLoop win32 codePage rest (dst ++ [ch])
    else if ch < 0x7f then
      let ch1 := (ch + 0x80) % 256
      if codePage > CP_KOI8 then
        match koi8_to_at (codePage - 1) ((ch1 : Int) - 0xE0) with
        | none => none
        | some wch =>
          let ch2 := (wch &&& 0xFF) % 256
          let dst1 := if wch &&& 0xFF00 ≠ 0 then dst ++ [((wch &&& 0xFF00) >>> 8) % 256] else dst
          decodeCPLoop win32 codePage rest (dst1 ++ [ch2])
      else
        decodeCPLoop win32 codePage rest (dst ++ [ch1])
    else if ch = 0xff then
      decodeCPLoop win32 codePage rest dst
    else
      decodeCPLoop win32 codePage rest (dst ++ [ch])

/-- The function `decodeCP(src, codePage)`. -/
def decodeCP (win32 : Bool) (src : List Nat) (codePage : Int) : Option (List Nat) :=
  decodeCPLoop win32 codePage src []

/-- The `for` loop of `decodeCP` once more, with a record kept of every index
pair `(codePage - 1, ch - 0xE0)` at which the statement
`wch = koi8_to[codePage - 1][ch - 0xE0];` indexes the table, in the order of
the input.  The first component is the output as in `decodeCPLoop`; the record
ends with the first index pair outside the table. -/
def decodeCPTraced (win32 : Bool) (codePage : Int) :
    List Nat → List Nat → Option (List Nat) × List (Int × Int)
  | [], dst => (some dst, [])
  | ch :: rest, dst =>
    if ch = 0x0d then
      decodeCPTraced win32 codePage rest ((if win32 then dst ++ [ch] else dst) ++ [0x0a])
    else if ch < 0x60 ∨ ch = 0x7f then
      decodeCPTraced win32 codePage rest (dst ++ [ch])
    else if ch < 0x7f then
      let ch1 := (ch + 0x80) % 256
      if codePage > CP_KOI8 then
        match koi8_to_at (codePage - 1) ((ch1 : Int) - 0xE0) with
        | none => (none, [(codePage - 1, (ch1 : Int) - 0xE0)])
        | some wch =>
          let ch2 := (wch &&& 0xFF) % 256
          let dst1 := if wch &&& 0xFF00 ≠ 0 then dst ++ [((wch &&& 0xFF00) >>> 8) % 256] else dst
          ((decodeCPTraced win32 codePage rest (dst1 ++ [ch2])).1,
            (codePage - 1, (ch1 : Int) - 0xE0)
              :: (decodeCPTraced win32 codePage rest (dst1 ++ [ch2])).2)
      else
        decodeCPTraced win32 codePage rest (dst ++ [ch1])
    else if ch = 0xff then
      decodeCPTraced win32 codePage rest dst
    else
      decodeCPTraced win32 codePage rest (dst ++ [ch])

/-- The function `extractFile`, from the point where `vol.readFile` has
returned: `buf` is the buffer it returned (`none` for `nullptr`, its length
is `size`) and `start` the load address it reported. -/
def extractFile (buf : Option (List Nat)) (start : Nat) (extractToTape : Bool)
    (codePage : Int) (win32 : Bool) (sink : Sink) : Option RkResult :=
  match buf with
  | none => some ⟨false, none⟩
  | some bytes =>
    if bytes.length = 0 then some ⟨false, none⟩
    else
      let decoded := if codePage ≥ CP_KOI8 then decodeCP win32 bytes codePage else some bytes
      match decoded with
      | none => none
      | some body =>
        if !extractToTape then
          if sink.openFails then some ⟨false, none⟩
          else if sink.writeFails then some ⟨false, some body⟩
          else some ⟨true, some body⟩
        else convertToRk body start sink

/-! ## The checksum as the specification words it -/

/-- The checksum in the words of the specification: a 16-bit accumulator
starts at 0; every byte but the last is added to it and then added shifted
left by 8 bits, modulo 65536; the last byte is folded into the low 8 bits
only. -/
def specChecksum (payload : List Nat) : Nat :=
  let acc := payload.dropLast.foldl
    (fun acc b => ((acc + b) % 65536 + b * 256) % 65536) 0
  let l := payload.getLastD 0
  (acc &&& 0xFF00) ||| ((acc + l) &&& 0xFF)

/-! ## Reference encodings -/

/-- The Unicode code points that the KOI8-R table (RFC 1489) assigns to the
bytes `0xE0 .. 0xFE`, in byte order: the upper-case Cyrillic letters
Ю А Б Ц Д Е Ф Г Х И Й К Л М Н О П Я Р С Т У Ж В Ь Ы З Ш Э Щ Ч. -/
def koi8rUpper : List Nat :=
  [ 0x042E, 0x0410, 0x0411, 0x0426, 0x0414, 0x0415, 0x0424, 0x0413,
    0x0425, 0x0418, 0x0419, 0x041A, 0x041B, 0x041C, 0x041D, 0x041E,
    0x041F, 0x042F, 0x0420, 0x0421, 0x0422, 0x0423, 0x0416, 0x0412,
    0x042C, 0x042B, 0x0417, 0x0428, 0x042D, 0x0429, 0x0427 ]

/-- The code point KOI8-R assigns to a byte in `0xE0 .. 0xFE`; `none` for
other bytes. -/
def koi8rCodepoint (byte : Nat) : Option Nat :=
  if 0xE0 ≤ byte then koi8rUpper[byte - 0xE0]? else none

/-- The UTF-8 encoding of a code point (RFC 3629). -/
def utf8Encode (cp : Nat) : List Nat :=
  if cp < 0x80 then [cp]
  else if cp < 0x800 then [0xC0 ||| (cp >>> 6), 0x80 ||| (cp &&& 0x3F)]
  else if cp < 0x10000 then
    [0xE0 ||| (cp >>> 12), 0x80 ||| ((cp >>> 6) &&& 0x3F), 0x80 ||| (cp &&& 0x3F)]
  else
    [0xF0 ||| (cp >>> 18), 0x80 ||| ((cp >>> 12) &&& 0x3F),
     0x80 ||| ((cp >>> 6) &&& 0x3F), 0x80 ||| (cp &&& 0x3F)]

/-- The code point Windows-1251 assigns to a byte in `0xC0 .. 0xFF`: the
letters U+0410 .. U+044F in order; `none` for other bytes. -/
def win1251Codepoint (byte : Nat) : Option Nat :=
  if 0xC0 ≤ byte ∧ byte ≤ 0xFF then some (0x0410 + (byte - 0xC0)) else none

/-! ## File names -/

/-- The scan behind `find_last_of`: the index of the last occurrence of `c`
from index `i` on, or `acc` when there is none. -/
def findLastFrom (c : Char) : List Char → Nat → Option Nat → Option Nat
  | [], _, acc => acc
  | x :: xs, i, acc => findLastFrom c xs (i + 1) (if x = c then some i else acc)

/-- The member `std::string::find_last_of(c)`: the index of the last
occurrence of `c`, or `npos` (`2 ^ 64 - 1`) when there is none. -/
def find_last_of (s : List Char) (c : Char) : Nat :=
  match findLastFrom c s 0 none with
  | none => 2 ^ 64 - 1
  | some p => p

/-- The member `std::string::substr(pos, count)`: the characters from `pos`
on, at most `count` of them; `none` (the exception `out_of_range`) when
`pos` is beyond the end. -/
def substr (s : List Char) (pos count : Nat) : Option (List Char) :=
  if pos > s.length then none else some ((s.drop pos).take count)

/-- Conversion of an `int` to `size_t` (modulo `2 ^ 64`). -/
def toSizeT (i : Int) : Nat :=
  (i % 2 ^ 64).toNat

/-- The body of the last loop of `makeRkDosFileName`: a character that is
not a digit, a Latin letter, a blank or a period becomes an underscore. -/
def cleanChar (ch : Char) : Char :=
  if ¬ ('0' ≤ ch ∧ ch ≤ '9') ∧ ¬ ('A' ≤ ch ∧ ch ≤ 'Z') ∧ ¬ ('a' ≤ ch ∧ ch ≤ 'z')
      ∧ ch ≠ ' ' ∧ ch ≠ '.' then '_'
  else ch

/-- The function `makeRkDosFileName(rkFileName)`.  `periodPos` is the
result of `find_last_of` stored in an `int`; both arguments of `substr` are
converted back to `size_t`.  `none` when `substr` throws. -/
def makeRkDosFileName (rkFileName : List Char) : Option (List Char) :=
  let periodPos : Int := toInt32 (find_last_of rkFileName '.')
  match substr rkFileName 0 (toSizeT (min periodPos 10)) with
  | none => none
  | some rkDosName =>
    match substr rkFileName (toSizeT (periodPos + 1)) 3 with
    | none => none
    | some ext =>
      let named := if ext ≠ [] then rkDosName ++ ['.'] ++ ext else rkDosName
      some (named.map cleanChar)

/-! ## Bit operations as arithmetic -/

theorem and_ff (x : Nat) : x &&& 0xFF = x % 256 :=
  Nat.and_pow_two_sub_one_eq_mod x 8

theorem shr_8 (x : Nat) : x >>> 8 = x / 256 := by
  simp [Nat.shiftRight_eq_div_pow]

theorem shl_8 (x : Nat) : x <<< 8 = x * 256 := by
  simp [Nat.shiftLeft_eq]

theorem and_ff00 (x : Nat) : x &&& 0xFF00 = (x / 256 % 256) * 256 := by
  have h : (0xFF00 : Nat) = (2 ^ 8 - 1) <<< 8 := by decide
  have h2 : (x / 256 % 256) * 256 = ((x >>> 8) % 2 ^ 8) <<< 8 := by
    simp [Nat.shiftLeft_eq, Nat.shiftRight_eq_div_pow]
  rw [h, h2]
  apply Nat.eq_of_testBit_eq
  intro i
  simp only [Nat.testBit_and, Nat.testBit_shiftLeft, Nat.testBit_two_pow_sub_one,
    Nat.testBit_mod_two_pow, Nat.testBit_shiftRight]
  by_cases hi : 8 ≤ i
  · have : 8 + (i - 8) = i := by omega
    simp [hi, this, Bool.and_comm]
  · simp [hi]

/-- The last step of the checksum, `(cs & 0xff00) | ((cs + l) & 0xff)`, in
arithmetic. -/
theorem fold_last_eq (cs l : Nat) :
    (cs &&& 0xff00) ||| ((cs + l) &&& 0xff) = (cs / 256 % 256) * 256 + (cs + l) % 256 := by
  rw [and_ff00, and_ff]
  have hlt : (cs + l) % 256 < 2 ^ 8 := by
    have := Nat.mod_lt (cs + l) (show 0 < 256 by decide)
    simpa using this
  have h := Nat.mul_add_lt_is_or hlt (cs / 256 % 256)
  have e : (2 : Nat) ^ 8 = 256 := by decide
  rw [e] at h
  rw [Nat.mul_comm (cs / 256 % 256) 256]
  exact h.symm

theorem fold_last_lt (cs l : Nat) :
    (cs &&& 0xff00) ||| ((cs + l) &&& 0xff) < 65536 := by
  rw [fold_last_eq]
  omega

/-! ## The checksum loop -/

theorem csStep_lt (cs b : Nat) : csStep cs b < 65536 := by
  unfold csStep
  omega

theorem addToRkCsLoop_eq (data : List Nat) :
    ∀ (k i cs : Nat), i + k ≤ data.length →
      addToRkCsLoop data i k cs = some (((data.drop i).take k).foldl csStep cs) := by
  intro k
  induction k with
  | zero => intro i cs _; simp [addToRkCsLoop]
  | succ k ih =>
    intro i cs h
    have hi : i < data.length := by omega
    have hd : data.drop i = data[i] :: data.drop (i + 1) := by
      simp
    rw [addToRkCsLoop, List.getElem?_eq_getElem hi]
    simp only
    rw [ih (i + 1) _ (by omega), hd]
    simp only [List.take_succ_cons, List.foldl_cons]

theorem toInt32_eq (n : Nat) (h : n < 2 ^ 31) : toInt32 n = (n : Int) := by
  unfold toInt32
  have e : n % 2 ^ 32 = n := by omega
  rw [e, if_pos (by omega)]

/-- On a non-empty buffer of fewer than `2 ^ 31` bytes `calcRkCs` reads
inside the buffer only, and its value is the loop over all bytes but the last
followed by the last step. -/
theorem calcRkCs_eq (data : List Nat) (h : data ≠ []) (hlt : data.length < 2 ^ 31) :
    calcRkCs data =
      some ((((data.dropLast.foldl csStep 0) &&& 0xff00) |||
        (((data.dropLast.foldl csStep 0) + data.getLastD 0) &&& 0xff))) := by
  have hlen : 0 < data.length := List.length_pos.mpr h
  unfold calcRkCs addToRkCs
  rw [toInt32_eq data.length hlt]
  simp only [if_true]
  have h1 : ((data.length : Int) - 1).toNat = data.length - 1 := by omega
  rw [h1, addToRkCsLoop_eq data (data.length - 1) 0 0 (by omega)]
  simp only [List.drop_zero]
  have h2 : readAt data ((data.length : Int) - 1) = some (data.getLastD 0) := by
    unfold readAt
    have : (0 : Int) ≤ (data.length : Int) - 1 := by omega
    rw [if_pos this, h1]
    rw [List.getElem?_eq_getElem (by omega)]
    congr 1
    rw [List.getLastD_eq_getLast?, List.getLast?_eq_getLast _ h, List.getLast_eq_getElem]
    simp
  rw [h2]
  simp only
  rw [Nat.mod_eq_of_lt (fold_last_lt _ _)]
  rw [List.dropLast_eq_take]

/-! ## The header -/

theorem endAddrOf_eq (loadAddr size : Nat) (h1 : 1 ≤ size) (h2 : loadAddr + size ≤ 2 ^ 31) :
    endAddrOf loadAddr size = ((loadAddr + size - 1 : Nat) : Int) := by
  unfold endAddrOf toInt32
  have e : (loadAddr + size + (2 ^ 64 - 1)) % 2 ^ 64 = loadAddr + size - 1 := by omega
  rw [e]
  have e2 : (loadAddr + size - 1) % 2 ^ 32 = loadAddr + size - 1 := by omega
  rw [e2, if_pos (by omega)]

theorem rkHeader_ofNat (loadAddr k : Nat) :
    rkHeader loadAddr (k : Int) =
      [(loadAddr >>> 8) % 256, (loadAddr &&& 0xFF) % 256, (k >>> 8) % 256, (k &&& 0xFF) % 256] := by
  unfold rkHeader
  have e1 : ((k : Int) >>> 8) = ((k >>> 8 : Nat) : Int) := rfl
  have e2 : Int.land (k : Int) 0xFF = ((k &&& 0xFF : Nat) : Int) := rfl
  rw [e1, e2]
  have e3 : (((k >>> 8 : Nat) : Int) % 256).toNat = (k >>> 8) % 256 := by omega
  have e4 : (((k &&& 0xFF : Nat) : Int) % 256).toNat = (k &&& 0xFF) % 256 := by omega
  rw [e3, e4]

/-- The header of a non-empty payload of at most 65535 bytes at a 16-bit
load address. -/
theorem rkHeader_eq (loadAddr size : Nat) (h1 : 1 ≤ size) (h2 : size ≤ 65535)
    (hA : loadAddr < 65536) :
    rkHeader loadAddr (endAddrOf loadAddr size) =
      [loadAddr >>> 8, loadAddr &&& 0xFF,
       ((loadAddr + size - 1) % 65536) >>> 8, ((loadAddr + size - 1) % 65536) &&& 0xFF] := by
  rw [endAddrOf_eq loadAddr size h1 (by omega), rkHeader_ofNat]
  simp only [and_ff, shr_8]
  congr 1
  · omega
  congr 1
  · omega
  congr 1
  · omega
  congr 1
  omega

/-- On a non-empty body of fewer than `2 ^ 31` bytes `convertToRk` reads
inside the body only; when the output file opens it hands header, body and
footer to `write`, in that order, and returns whether the writes
succeeded. -/
theorem convertToRk_eq (body : List Nat) (loadAddr : Nat) (sink : Sink) (h : body ≠ [])
    (hlt : body.length < 2 ^ 31) (hs : sink.openFails = false) :
    ∃ cs, calcRkCs body = some cs ∧ cs < 65536 ∧
      convertToRk body loadAddr sink =
        some ⟨!sink.writeFails,
          some (rkHeader loadAddr (endAddrOf loadAddr body.length) ++ body ++ rkFooter cs)⟩ := by
  refine ⟨_, calcRkCs_eq body h hlt, fold_last_lt _ _, ?_⟩
  unfold convertToRk
  rw [calcRkCs_eq body h hlt]
  simp only [hs]
  cases sink.writeFails <;> simp

theorem rkFooter_eq (cs : Nat) (h : cs < 65536) :
    rkFooter cs = [0x00, 0x00, 0xE6, cs >>> 8, cs &&& 0xFF] := by
  unfold rkFooter
  simp only [and_ff, shr_8]
  congr 4
  · omega
  · congr 1
    omega

theorem rkHeader_length (loadAddr : Nat) (endAddr : Int) :
    (rkHeader loadAddr endAddr).length = 4 := rfl

theorem rkFooter_length (cs : Nat) : (rkFooter cs).length = 5 := rfl

/-! ## The checksum in closed form -/

theorem csStep_eq (cs b : Nat) : csStep cs b = (cs + 257 * b) % 65536 := by
  unfold csStep
  rw [shl_8]
  omega

theorem foldl_csStep_mod (xs : List Nat) :
    ∀ cs, xs.foldl csStep cs % 65536 = (cs + 257 * xs.sum) % 65536 := by
  induction xs with
  | nil => intro cs; simp
  | cons b xs ih =>
    intro cs
    rw [List.foldl_cons, ih, csStep_eq, List.sum_cons]
    omega

theorem foldl_csStep_lt (xs : List Nat) :
    ∀ cs, cs < 65536 → xs.foldl csStep cs < 65536 := by
  induction xs with
  | nil => intro cs h; simpa using h
  | cons b xs ih =>
    intro cs _
    rw [List.foldl_cons]
    exact ih _ (csStep_lt cs b)

theorem foldl_csStep_zero (xs : List Nat) :
    xs.foldl csStep 0 = (257 * xs.sum) % 65536 := by
  have h1 := foldl_csStep_mod xs 0
  have h2 := foldl_csStep_lt xs 0 (by decide)
  omega

/-- The checksum of `xs ++ [l]` (fewer than `2 ^ 31` bytes) in arithmetic:
the high byte and the low byte of `257 * sum xs mod 65536`, the low byte
moved by `l`. -/
theorem calcRkCs_concat (xs : List Nat) (l : Nat) (hlt : xs.length + 1 < 2 ^ 31) :
    calcRkCs (xs ++ [l]) =
      some (((257 * xs.sum) % 65536 / 256 % 256) * 256 + ((257 * xs.sum) % 65536 + l) % 256) := by
  rw [calcRkCs_eq (xs ++ [l]) (by simp) (by simpa using hlt)]
  rw [List.dropLast_concat, List.getLastD_concat, fold_last_eq, foldl_csStep_zero]

theorem sum_set_add (xs : List Nat) :
    ∀ (i v : Nat) (h : i < xs.length), (xs.set i v).sum + xs[i] = xs.sum + v := by
  induction xs with
  | nil => intro i v h; simp at h
  | cons b xs ih =>
    intro i v h
    cases i with
    | zero => simp; omega
    | succ i =>
      have := ih i v (by simpa using h)
      simp only [List.set_cons_succ, List.sum_cons, List.getElem_cons_succ]
      omega

/-! ## The transcoder loop -/

/-- One round of the loop of `decodeCP`: the bytes one input byte appends
are those `decodeCP` gives for that byte alone. -/
theorem decodeCPLoop_cons (win32 : Bool) (codePage : Int) (ch : Nat) (rest dst : List Nat) :
    decodeCPLoop win32 codePage (ch :: rest) dst =
      (decodeCP win32 [ch] codePage).bind
        (fun e => decodeCPLoop win32 codePage rest (dst ++ e)) := by
  unfold decodeCP
  simp only [decodeCPLoop]
  split_ifs
  all_goals first
    | (simp [decodeCPLoop]; done)
    | (split
       · simp
       · simp only [Option.some_bind]
         split_ifs <;> simp)

theorem decodeCPLoop_acc (win32 : Bool) (codePage : Int) (src : List Nat) :
    ∀ dst, decodeCPLoop win32 codePage src dst =
      (decodeCPLoop win32 codePage src []).map (fun out => dst ++ out) := by
  induction src with
  | nil => intro dst; simp [decodeCPLoop]
  | cons ch rest ih =>
    intro dst
    rw [decodeCPLoop_cons, decodeCPLoop_cons win32 codePage ch rest []]
    cases decodeCP win32 [ch] codePage with
    | none => simp
    | some e =>
      simp only [Option.some_bind, List.nil_append]
      rw [ih (dst ++ e), ih e]
      cases decodeCPLoop win32 codePage rest [] <;> simp

/-- The output of `decodeCP` is the concatenation, in input order, of what
each byte gives alone. -/
theorem decodeCP_cons (win32 : Bool) (codePage : Int) (ch : Nat) (rest : List Nat) :
    decodeCP win32 (ch :: rest) codePage =
      (decodeCP win32 [ch] codePage).bind
        (fun e => (decodeCP win32 rest codePage).map (fun out => e ++ out)) := by
  unfold decodeCP
  rw [decodeCPLoop_cons]
  unfold decodeCP
  cases h : decodeCPLoop win32 codePage [ch] [] with
  | none => simp
  | some e =>
    simp only [Option.some_bind, List.nil_append]
    rw [decodeCPLoop_acc]

theorem decodeCP_nil (win32 : Bool) (codePage : Int) :
    decodeCP win32 [] codePage = some [] := rfl

/-- What a byte of the band `0x60 .. 0x7E` gives under each of the three
code pages. -/
theorem decodeCP_band (win32 : Bool) (ch : Nat) (h1 : 0x60 ≤ ch) (h2 : ch ≤ 0x7E) :
    decodeCP win32 [ch] CP_KOI8 = some [ch + 0x80] ∧
      decodeCP win32 [ch] CP_WIN1251 = some [(koi8_to.getD 0 []).getD (ch - 0x60) 0] ∧
      decodeCP win32 [ch] CP_UTF8 = some [0xD0, (koi8_to.getD 1 []).getD (ch - 0x60) 0 % 256] := by
  interval_cases ch <;> cases win32 <;> exact ⟨rfl, rfl, rfl⟩

/-- What a byte outside the band gives, under any code page. -/
theorem decodeCP_other (win32 : Bool) (codePage : Int) (ch : Nat)
    (h : ¬ (0x60 ≤ ch ∧ ch ≤ 0x7E)) :
    decodeCP win32 [ch] codePage =
      some (if ch = 0x0d then (if win32 then [0x0d, 0x0a] else [0x0a])
        else if ch = 0xff then [] else [ch]) := by
  unfold decodeCP
  simp only [decodeCPLoop]
  split_ifs <;> first | rfl | (exfalso; omega) | simp_all

/-- Under the three code pages every byte gives at most two bytes, at least
one unless it is `0xFF`, and none when it is `0xFF`. -/
theorem decodeCP_single (win32 : Bool) (codePage : Int) (ch : Nat)
    (hcp : codePage = CP_KOI8 ∨ codePage = CP_WIN1251 ∨ codePage = CP_UTF8) :
    ∃ e, decodeCP win32 [ch] codePage = some e ∧ e.length ≤ 2 ∧
      (ch ≠ 0xFF → 1 ≤ e.length) ∧ (ch = 0xFF → e = []) := by
  by_cases h : 0x60 ≤ ch ∧ ch ≤ 0x7E
  · obtain ⟨a, b, c⟩ := decodeCP_band win32 ch h.1 h.2
    rcases hcp with rfl | rfl | rfl
    · exact ⟨_, a, by simp, by simp, by omega⟩
    · exact ⟨_, b, by simp, by simp, by omega⟩
    · exact ⟨_, c, by simp, by simp, by omega⟩
  · refine ⟨_, decodeCP_other win32 codePage ch h, ?_, ?_, ?_⟩
    · split_ifs <;> simp
    · intro hne
      split_ifs <;> simp
    · intro he
      simp [he]

/-- Under the three code pages `decodeCP` indexes `koi8_to` inside the table
only, and its output has at least as many bytes as the input has bytes other
than `0xFF`, and at most twice as many as the input has bytes. -/
theorem decodeCP_total_bounds (win32 : Bool) (codePage : Int)
    (hcp : codePage = CP_KOI8 ∨ codePage = CP_WIN1251 ∨ codePage = CP_UTF8) (src : List Nat) :
    ∃ out, decodeCP win32 src codePage = some out ∧
      (src.filter (fun b => b ≠ 0xFF)).length ≤ out.length ∧ out.length ≤ 2 * src.length := by
  induction src with
  | nil => exact ⟨[], rfl, by simp, by simp⟩
  | cons ch rest ih =>
    obtain ⟨out, ho, h1, h2⟩ := ih
    obtain ⟨e, he, e1, e2, _⟩ := decodeCP_single win32 codePage ch hcp
    refine ⟨e ++ out, ?_, ?_, ?_⟩
    · rw [decodeCP_cons, he, ho]
      rfl
    · rw [List.filter_cons]
      split_ifs with hc
      · have : ch ≠ 0xFF := by simpa using hc
        have := e2 this
        simp only [List.length_cons, List.length_append]
        omega
      · simp only [List.length_append]
        omega
    · simp only [List.length_cons, List.length_append]
      omega

/-- A byte `0xFF` at the head of the input leaves no trace in the output. -/
theorem decodeCP_ff_cons (win32 : Bool) (codePage : Int) (ys : List Nat) :
    decodeCP win32 (0xFF :: ys) codePage = decodeCP win32 ys codePage := by
  rw [decodeCP_cons, decodeCP_other win32 codePage 0xFF (by omega)]
  cases decodeCP win32 ys codePage <;> simp

/-! ## Properties of the tape container and of the checksum -/

/-- C1: for a non-empty payload `P` of at most 65535 bytes and a 16-bit load
address `A`, the byte stream `convertToRk` writes (the output file opens)
has `length P + 9` bytes and begins with `A >> 8`, `A & 0xFF`, `E >> 8`,
`E & 0xFF`, where `E = (A + length P - 1) mod 65536`. -/
theorem convertToRk_length_and_header (P : List Nat) (A : Nat) (sink : Sink)
    (h1 : 1 ≤ P.length) (h2 : P.length ≤ 65535) (hA : A < 65536)
    (hs : sink.openFails = false) :
    ∃ out, convertToRk P A sink = some ⟨!sink.writeFails, some out⟩ ∧
      out.length = P.length + 9 ∧
      out.take 4 = [A >>> 8, A &&& 0xFF,
        ((A + P.length - 1) % 65536) >>> 8, ((A + P.length - 1) % 65536) &&& 0xFF] := by
  have hne : P ≠ [] := by
    intro e
    rw [e] at h1
    simp at h1
  obtain ⟨cs, _, _, hc⟩ := convertToRk_eq P A sink hne (by omega) hs
  refine ⟨_, hc, ?_, ?_⟩
  · simp only [List.length_append, rkHeader_length, rkFooter_length]
    omega
  · rw [List.append_assoc, List.take_append_of_le_length (by rw [rkHeader_length])]
    rw [rkHeader_eq A P.length h1 h2 hA]
    rfl

/-- Witness for C1: load address `0xFFFF` with a 2-byte payload; the end
address wraps to `0x0000`. -/
theorem convertToRk_length_and_header_witness :
    ∃ out, convertToRk [1, 2] 0xFFFF ⟨false, false⟩ = some ⟨true, some out⟩ ∧
      out.length = 2 + 9 ∧ out.take 4 = [0xFF, 0xFF, 0x00, 0x00] :=
  convertToRk_length_and_header [1, 2] 0xFFFF ⟨false, false⟩ (by decide) (by decide)
    (by decide) rfl

/-- C2: for a non-empty payload `P` of fewer than `2 ^ 31` bytes (the range
in which `data.size()` fits the `int len` of `addToRkCs`; it holds every
payload of at most 65535 bytes) and any load address `A`, the byte
stream `convertToRk` writes (the output file opens) is the 4-byte header,
then `P` unchanged at offsets `4 .. 4 + N - 1`, then the five bytes
`0x00, 0x00, 0xE6, cs >> 8, cs & 0xFF` with `cs = calcRkCs(P)`, and nothing
else. -/
theorem convertToRk_payload_and_footer (P : List Nat) (A : Nat) (sink : Sink)
    (hP : P ≠ []) (hlt : P.length < 2 ^ 31) (hs : sink.openFails = false) :
    ∃ cs out, calcRkCs P = some cs ∧
      convertToRk P A sink = some ⟨!sink.writeFails, some out⟩ ∧
      (out.take 4).length = 4 ∧
      out = out.take 4 ++ P ++ [0x00, 0x00, 0xE6, cs >>> 8, cs &&& 0xFF] ∧
      (out.drop 4).take P.length = P ∧
      out.drop (4 + P.length) = [0x00, 0x00, 0xE6, cs >>> 8, cs &&& 0xFF] := by
  obtain ⟨cs, h1, h2, h3⟩ := convertToRk_eq P A sink hP hlt hs
  refine ⟨cs, _, h1, h3, ?_, ?_, ?_, ?_⟩
  · simp [rkHeader_length]
  · rw [List.append_assoc, List.take_append_of_le_length (by rw [rkHeader_length]),
      List.take_of_length_le (by rw [rkHeader_length]), rkFooter_eq cs h2,
      List.append_assoc]
  · rw [List.append_assoc, List.drop_append_of_le_length (by rw [rkHeader_length]),
      List.drop_of_length_le (by rw [rkHeader_length])]
    simp
  · have e : 4 + P.length = (rkHeader A (endAddrOf A P.length) ++ P).length := by
      simp [rkHeader_length]
    rw [e, List.drop_left, rkFooter_eq cs h2]

/-- Witness for C2: the payload `[1, 2, 3]` at load address `0x1234`. -/
theorem convertToRk_payload_and_footer_witness :
    ∃ cs out, calcRkCs [1, 2, 3] = some cs ∧
      convertToRk [1, 2, 3] 0x1234 ⟨false, false⟩ = some ⟨true, some out⟩ ∧
      (out.take 4).length = 4 ∧
      out = out.take 4 ++ [1, 2, 3] ++ [0x00, 0x00, 0xE6, cs >>> 8, cs &&& 0xFF] ∧
      (out.drop 4).take 3 = [1, 2, 3] ∧
      out.drop (4 + 3) = [0x00, 0x00, 0xE6, cs >>> 8, cs &&& 0xFF] :=
  convertToRk_payload_and_footer [1, 2, 3] 0x1234 ⟨false, false⟩ (by decide) (by decide) rfl

/-- C3: for a non-empty payload `P` of fewer than `2 ^ 31` bytes (the range
in which `data.size()` fits the `int len` of `addToRkCs`; it holds every
payload of at most 65535 bytes), `calcRkCs(P)` is the checksum of the
specification (all bytes but the last added plain and shifted by 8 bits modulo
65536, the last byte folded into the low byte only); for the payload
`[0x01, 0x02, 0x03]` the accumulator before the last step is `0x0303` and
the checksum is `0x0306`. -/
theorem calcRkCs_refines_specChecksum (P : List Nat) (hP : P ≠ [])
    (hlt : P.length < 2 ^ 31) :
    calcRkCs P = some (specChecksum P) ∧
      [0x01, 0x02].foldl csStep 0 = 0x0303 ∧
      calcRkCs [0x01, 0x02, 0x03] = some 0x0306 := by
  refine ⟨?_, by decide, by decide⟩
  rw [calcRkCs_eq P hP hlt]
  unfold specChecksum
  have e : csStep = fun acc b => ((acc + b) % 65536 + b * 256) % 65536 := by
    funext acc b
    unfold csStep
    rw [shl_8]
  rw [e]

/-- Witness for C3: the payload `[0x10, 0xFF, 0x80, 0x01]`. -/
theorem calcRkCs_refines_specChecksum_witness :
    calcRkCs [0x10, 0xFF, 0x80, 0x01] = some (specChecksum [0x10, 0xFF, 0x80, 0x01]) ∧
      [0x01, 0x02].foldl csStep 0 = 0x0303 ∧
      calcRkCs [0x01, 0x02, 0x03] = some 0x0306 :=
  calcRkCs_refines_specChecksum [0x10, 0xFF, 0x80, 0x01] (by decide) (by decide)

/-- C4 (the code at the failing input): a stored file holding the single
byte `0xFF`, extracted to tape with a code page, passes the size check of
`extractFile`, is emptied by `decodeCP`, and reaches `convertToRk` with an
empty body, where `calcRkCs` reads `data[-1]`, outside the buffer: no
failure is reported.  A stored file of size zero is rejected before that
with `false` and nothing written. -/
theorem extractFile_emptied_body_reads_outside :
    decodeCP false [0xFF] CP_KOI8 = some [] ∧
      calcRkCs [] = none ∧
      convertToRk [] 0 ⟨false, false⟩ = none ∧
      extractFile (some [0xFF]) 0 true CP_KOI8 false ⟨false, false⟩ = none ∧
      extractFile (some []) 0 true CP_KOI8 false ⟨false, false⟩ = some ⟨false, none⟩ := by
  refine ⟨?_, ?_, ?_, ?_, ?_⟩ <;> decide

/-- C10: `calcRkCs` depends on the payload bytes only, and it detects every
single-byte change: for a payload `P` of fewer than `2 ^ 31` bytes (the
range in which `data.size()` fits the `int len` of `addToRkCs`), a position
`i < length P` and a byte `v` different from `P[i]`, both checksums are
defined and the
checksum of `P` with `P[i]` replaced by `v` differs from the checksum of
`P`. -/
theorem calcRkCs_detects_single_byte_change (P : List Nat) (i v : Nat)
    (hP : ∀ b ∈ P, b < 256) (hlt : P.length < 2 ^ 31) (hi : i < P.length) (hv : v < 256)
    (hne : v ≠ P[i]) :
    (∀ Q, Q = P → calcRkCs Q = calcRkCs P) ∧
      ∃ c c1, calcRkCs P = some c ∧ calcRkCs (P.set i v) = some c1 ∧ c1 ≠ c := by
  refine ⟨fun Q h => by rw [h], ?_⟩
  have hnil : P ≠ [] := by
    intro e
    rw [e] at hi
    simp at hi
  obtain ⟨xs, l, rfl⟩ : ∃ xs l, P = xs ++ [l] :=
    ⟨P.dropLast, P.getLast hnil, (List.dropLast_append_getLast hnil).symm⟩
  have hl : l < 256 := hP l (by simp)
  have hlt1 : xs.length + 1 < 2 ^ 31 := by simpa using hlt
  by_cases hx : i < xs.length
  · have hb : xs[i] < 256 := hP _ (by simp [List.getElem_mem])
    have hget : (xs ++ [l])[i] = xs[i] := List.getElem_append_left hx
    rw [hget] at hne
    have hset : (xs ++ [l]).set i v = xs.set i v ++ [l] := by
      rw [List.set_append, if_pos hx]
    rw [hset, calcRkCs_concat xs l hlt1,
      calcRkCs_concat (xs.set i v) l (by simpa using hlt1)]
    refine ⟨_, _, rfl, rfl, ?_⟩
    have hsum := sum_set_add xs i v hx
    generalize (xs.set i v).sum = s1 at *
    generalize xs.sum = s at *
    generalize xs[i] = b at *
    omega
  · have hlen : i = xs.length := by
      simp at hi
      omega
    have hget : (xs ++ [l])[i] = l := by
      simp [hlen]
    rw [hget] at hne
    have hset : (xs ++ [l]).set i v = xs ++ [v] := by
      rw [List.set_append, if_neg hx, hlen]
      simp
    rw [hset, calcRkCs_concat xs l hlt1, calcRkCs_concat xs v hlt1]
    refine ⟨_, _, rfl, rfl, ?_⟩
    omega

/-- Witness for C10: the middle byte of `[0x01, 0x02, 0x03]` replaced by
`0xFF`. -/
theorem calcRkCs_detects_single_byte_change_witness :
    (∀ Q, Q = [0x01, 0x02, 0x03] → calcRkCs Q = calcRkCs [0x01, 0x02, 0x03]) ∧
      ∃ c c1, calcRkCs [0x01, 0x02, 0x03] = some c ∧
        calcRkCs ([0x01, 0x02, 0x03].set 1 0xFF) = some c1 ∧ c1 ≠ c :=
  calcRkCs_detects_single_byte_change [0x01, 0x02, 0x03] 1 0xFF (by decide) (by decide)
    (by decide) (by decide) (by decide)

/-! ## Properties of the text transcoder -/

/-- C5: for target `UTF8` and an input byte `b` in `0x60 .. 0x7E`,
`decodeCP([b], CP_UTF8)` is the two-byte UTF-8 encoding of the code point that
KOI8-R assigns to the byte `b + 0x80`; `0x61` gives `0xD0, 0x90`, the
encoding of U+0410. -/
theorem decodeCP_utf8_agrees_with_koi8r (win32 : Bool) (b : Nat)
    (h1 : 0x60 ≤ b) (h2 : b ≤ 0x7E) :
    ∃ cp, koi8rCodepoint (b + 0x80) = some cp ∧
      decodeCP win32 [b] CP_UTF8 = some (utf8Encode cp) ∧
      (utf8Encode cp).length = 2 ∧
      decodeCP win32 [0x61] CP_UTF8 = some [0xD0, 0x90] ∧
      utf8Encode 0x0410 = [0xD0, 0x90] := by
  refine ⟨koi8rUpper.getD (b - 0x60) 0, ?_⟩
  interval_cases b <;> cases win32 <;> exact ⟨rfl, rfl, rfl, rfl, rfl⟩

/-- Witness for C5: the byte `0x7E`, which KOI8-R reads as U+0427. -/
theorem decodeCP_utf8_agrees_with_koi8r_witness :
    ∃ cp, koi8rCodepoint (0x7E + 0x80) = some cp ∧
      decodeCP false [0x7E] CP_UTF8 = some (utf8Encode cp) ∧
      (utf8Encode cp).length = 2 ∧
      decodeCP false [0x61] CP_UTF8 = some [0xD0, 0x90] ∧
      utf8Encode 0x0410 = [0xD0, 0x90] :=
  decodeCP_utf8_agrees_with_koi8r false 0x7E (by decide) (by decide)

/-- C6: under every code page (so under each of `KOI8`, `WIN1251`, `UTF8`)
and either line ending, a byte `b` that is not `0x0D`, not `0xFF` and not in
`0x60 .. 0x7E` is passed through unchanged, and under `KOI8` a byte `c` in
`0x60 .. 0x7E` gives `c + 0x80`; so `0x41` gives `0x41` and `0x61` gives
`0xE1`. -/
theorem decodeCP_passthrough_and_koi8_shift (win32 : Bool) (codePage : Int) (b c : Nat)
    (hb1 : b ≠ 0x0D) (hb2 : b ≠ 0xFF) (hb3 : ¬ (0x60 ≤ b ∧ b ≤ 0x7E))
    (hc1 : 0x60 ≤ c) (hc2 : c ≤ 0x7E) :
    decodeCP win32 [b] codePage = some [b] ∧
      decodeCP win32 [c] CP_KOI8 = some [c + 0x80] ∧
      decodeCP win32 [0x41] CP_KOI8 = some [0x41] ∧
      decodeCP win32 [0x61] CP_KOI8 = some [0xE1] := by
  refine ⟨?_, (decodeCP_band win32 c hc1 hc2).1, ?_, ?_⟩
  · rw [decodeCP_other win32 codePage b hb3, if_neg hb1, if_neg hb2]
  · cases win32 <;> rfl
  · cases win32 <;> rfl

/-- Witness for C6: the byte `0xE1` under `UTF8` (outside the band) and the
byte `0x60` under `KOI8`. -/
theorem decodeCP_passthrough_and_koi8_shift_witness :
    decodeCP true [0xE1] CP_UTF8 = some [0xE1] ∧
      decodeCP true [0x60] CP_KOI8 = some [0x60 + 0x80] ∧
      decodeCP true [0x41] CP_KOI8 = some [0x41] ∧
      decodeCP true [0x61] CP_KOI8 = some [0xE1] :=
  decodeCP_passthrough_and_koi8_shift true CP_UTF8 0xE1 0x60
    (by decide) (by decide) (by decide) (by decide) (by decide)

/-- C7: under every code page the single byte `0x0D` gives exactly `0x0A`
when the line ending is LF (the branch without `WIN32`) and exactly
`0x0D, 0x0A` when it is CRLF (the `WIN32` branch). -/
theorem decodeCP_carriage_return (codePage : Int) :
    decodeCP false [0x0D] codePage = some [0x0A] ∧
      decodeCP true [0x0D] codePage = some [0x0D, 0x0A] := by
  constructor
  · rw [decodeCP_other false codePage 0x0D (by omega)]
    rfl
  · rw [decodeCP_other true codePage 0x0D (by omega)]
    rfl

/-- C8: under each of the three code pages and either line ending, the
output of `decodeCP` has at least as many bytes as the input has bytes
different from `0xFF` and at most twice as many as the input has bytes; a
byte `0xFF` anywhere in the input contributes no output byte, and
`decodeCP([0xFF])` is empty. -/
theorem decodeCP_length_bounds (win32 : Bool) (codePage : Int) (src : List Nat)
    (hcp : codePage = CP_KOI8 ∨ codePage = CP_WIN1251 ∨ codePage = CP_UTF8) :
    (∃ out, decodeCP win32 src codePage = some out ∧
      (src.filter (fun b => b ≠ 0xFF)).length ≤ out.length ∧
      out.length ≤ 2 * src.length) ∧
      (∀ xs ys, decodeCP win32 (xs ++ 0xFF :: ys) codePage
        = decodeCP win32 (xs ++ ys) codePage) ∧
      decodeCP win32 [0xFF] codePage = some [] := by
  refine ⟨decodeCP_total_bounds win32 codePage hcp src, ?_, ?_⟩
  · intro xs ys
    induction xs with
    | nil => exact decodeCP_ff_cons win32 codePage ys
    | cons x xs ih =>
      rw [List.cons_append, List.cons_append,
        decodeCP_cons win32 codePage x (xs ++ 0xFF :: ys),
        decodeCP_cons win32 codePage x (xs ++ ys), ih]
  · rw [decodeCP_other win32 codePage 0xFF (by omega)]
    rfl

/-- Witness for C8: a text with a letter of the band, a carriage return, a
dropped `0xFF` and a plain letter, under `UTF8` with CRLF. -/
theorem decodeCP_length_bounds_witness :
    (∃ out, decodeCP true [0x61, 0x0D, 0xFF, 0x41] CP_UTF8 = some out ∧
      ([0x61, 0x0D, 0xFF, 0x41].filter (fun b => b ≠ 0xFF)).length ≤ out.length ∧
      out.length ≤ 2 * [0x61, 0x0D, 0xFF, 0x41].length) ∧
      (∀ xs ys, decodeCP true (xs ++ 0xFF :: ys) CP_UTF8
        = decodeCP true (xs ++ ys) CP_UTF8) ∧
      decodeCP true [0xFF] CP_UTF8 = some [] :=
  decodeCP_length_bounds true CP_UTF8 [0x61, 0x0D, 0xFF, 0x41] (Or.inr (Or.inr rfl))

/-- Dropping the record of `decodeCPTraced` gives the loop of `decodeCP`,
under every code page. -/
theorem decodeCPTraced_fst (win32 : Bool) (codePage : Int) (src : List Nat) :
    ∀ dst, (decodeCPTraced win32 codePage src dst).1 = decodeCPLoop win32 codePage src dst := by
  induction src with
  | nil => intro dst; rfl
  | cons ch rest ih =>
    intro dst
    simp only [decodeCPTraced, decodeCPLoop]
    split_ifs
    all_goals first
      | exact ih _
      | (split
         · rfl
         · exact ih _)

/-- The loop of `decodeCP` has no output exactly when one of the recorded
index pairs lies outside the table, under every code page. -/
theorem decodeCPTraced_none_iff (win32 : Bool) (codePage : Int) (src : List Nat) :
    ∀ dst, decodeCPLoop win32 codePage src dst = none ↔
      ∃ idx ∈ (decodeCPTraced win32 codePage src dst).2, koi8_to_at idx.1 idx.2 = none := by
  induction src with
  | nil => intro dst; simp [decodeCPTraced, decodeCPLoop]
  | cons ch rest ih =>
    intro dst
    simp only [decodeCPTraced, decodeCPLoop]
    split_ifs
    all_goals first
      | exact ih _
      | (split
         · rename_i hnone
           generalize (((ch + 0x80) % 256 : Nat) : Int) - 0xE0 = col at hnone ⊢
           simp [hnone]
         · rename_i wch hsome
           generalize (((ch + 0x80) % 256 : Nat) : Int) - 0xE0 = col at hsome ⊢
           rw [ih]
           simp [hsome])

/-- Under the three code pages every recorded index pair lies inside the
`2 x 31` table. -/
theorem decodeCPTraced_in_table (win32 : Bool) (codePage : Int)
    (hcp : codePage = CP_KOI8 ∨ codePage = CP_WIN1251 ∨ codePage = CP_UTF8) (src : List Nat) :
    ∀ dst, ∀ idx ∈ (decodeCPTraced win32 codePage src dst).2,
      0 ≤ idx.1 ∧ idx.1 ≤ 1 ∧ 0 ≤ idx.2 ∧ idx.2 ≤ 30 ∧
        ∃ wch, koi8_to_at idx.1 idx.2 = some wch := by
  induction src with
  | nil => intro dst idx h; simp [decodeCPTraced] at h
  | cons ch rest ih =>
    intro dst idx
    simp only [decodeCPTraced]
    split_ifs with h1 h2 h3 h4 h5
    all_goals first
      | exact ih _ idx
      | skip
    have hlo : 0x60 ≤ ch := by omega
    have hhi : ch ≤ 0x7E := by omega
    have hrow : 0 ≤ codePage - 1 ∧ codePage - 1 ≤ 1 := by
      rcases hcp with rfl | rfl | rfl <;> simp [CP_KOI8, CP_WIN1251, CP_UTF8] at h5 ⊢
    have hcol : (0 : Int) ≤ (((ch + 0x80) % 256 : Nat) : Int) - 0xE0 ∧
        (((ch + 0x80) % 256 : Nat) : Int) - 0xE0 ≤ 30 := by omega
    have hin : ∃ wch, koi8_to_at (codePage - 1) ((((ch + 0x80) % 256 : Nat) : Int) - 0xE0)
        = some wch := by
      rcases hcp with rfl | rfl | rfl
      · simp [CP_KOI8] at h5
      · interval_cases ch <;> exact ⟨_, rfl⟩
      · interval_cases ch <;> exact ⟨_, rfl⟩
    obtain ⟨wch, hw⟩ := hin
    rw [hw]
    simp only [List.mem_cons]
    rintro (rfl | hmem)
    · exact ⟨hrow.1, hrow.2, hcol.1, hcol.2, wch, hw⟩
    · exact ih _ idx hmem

/-- C9: under the code pages `KOI8` (0), `WIN1251` (1) and `UTF8` (2)
`decodeCP` returns an output for every byte sequence.  `koi8_to` is a
`2 x 31` table, and every index pair at which `decodeCP` indexes it while
it works through the input (the record of `decodeCPTraced`, whose output is
that of `decodeCP`) has its row `codePage - 1` in `0 .. 1` and its column
`ch - 0xE0` in `0 .. 30`, so the entry exists.  The record is the one that
decides the outcome: under any code page whatever `decodeCP` is without an
output exactly when a recorded index pair lies outside the table; under
`UTF8` the input `0x60, 0x41, 0x7E` indexes `(1, 0)` and `(1, 30)`. -/
theorem decodeCP_lookups_in_table (win32 : Bool) (codePage : Int) (src : List Nat)
    (hcp : codePage = CP_KOI8 ∨ codePage = CP_WIN1251 ∨ codePage = CP_UTF8) :
    (∃ out, decodeCP win32 src codePage = some out ∧
      (decodeCPTraced win32 codePage src []).1 = some out) ∧
      koi8_to.length = 2 ∧ (∀ r ∈ koi8_to, r.length = 31) ∧
      (∀ idx ∈ (decodeCPTraced win32 codePage src []).2,
        0 ≤ idx.1 ∧ idx.1 ≤ 1 ∧ 0 ≤ idx.2 ∧ idx.2 ≤ 30 ∧
          ∃ wch, koi8_to_at idx.1 idx.2 = some wch) ∧
      (∀ cp : Int, decodeCP win32 src cp = none ↔
        ∃ idx ∈ (decodeCPTraced win32 cp src []).2, koi8_to_at idx.1 idx.2 = none) ∧
      (decodeCPTraced false CP_UTF8 [0x60, 0x41, 0x7E] []).2 = [(1, 0), (1, 30)] := by
  obtain ⟨out, ho, _⟩ := decodeCP_total_bounds win32 codePage hcp src
  refine ⟨⟨out, ho, ?_⟩, rfl, by decide, decodeCPTraced_in_table win32 codePage hcp src [],
    fun cp => decodeCPTraced_none_iff win32 cp src [], by decide⟩
  rw [decodeCPTraced_fst]
  exact ho

/-- Witness for C9: the input `0x60, 0x7E, 0x0D` under `KOI8`, the code page
under which the table is not indexed at all. -/
theorem decodeCP_lookups_in_table_witness :
    (∃ out, decodeCP false [0x60, 0x7E, 0x0D] CP_KOI8 = some out ∧
      (decodeCPTraced false CP_KOI8 [0x60, 0x7E, 0x0D] []).1 = some out) ∧
      koi8_to.length = 2 ∧ (∀ r ∈ koi8_to, r.length = 31) ∧
      (∀ idx ∈ (decodeCPTraced false CP_KOI8 [0x60, 0x7E, 0x0D] []).2,
        0 ≤ idx.1 ∧ idx.1 ≤ 1 ∧ 0 ≤ idx.2 ∧ idx.2 ≤ 30 ∧
          ∃ wch, koi8_to_at idx.1 idx.2 = some wch) ∧
      (∀ cp : Int, decodeCP false [0x60, 0x7E, 0x0D] cp = none ↔
        ∃ idx ∈ (decodeCPTraced false cp [0x60, 0x7E, 0x0D] []).2,
          koi8_to_at idx.1 idx.2 = none) ∧
      (decodeCPTraced false CP_UTF8 [0x60, 0x41, 0x7E] []).2 = [(1, 0), (1, 30)] :=
  decodeCP_lookups_in_table false CP_KOI8 [0x60, 0x7E, 0x0D] (Or.inl rfl)

/-- C11: the two rows of `koi8_to` name the same letter at every index:
for an input byte `b` in `0x60 .. 0x7E`, `decodeCP([b], CP_WIN1251)` is a
single byte `w` with `0xC0 <= w <= 0xDF`, and `decodeCP([b], CP_UTF8)` is
`0xD0, w - 0x30`, the UTF-8 encoding of the code point
`U+0410 + (w - 0xC0)` that Windows-1251 assigns to `w`. -/
theorem koi8_to_rows_name_same_letter (win32 : Bool) (b : Nat)
    (h1 : 0x60 ≤ b) (h2 : b ≤ 0x7E) :
    ∃ w, decodeCP win32 [b] CP_WIN1251 = some [w] ∧ 0xC0 ≤ w ∧ w ≤ 0xDF ∧
      decodeCP win32 [b] CP_UTF8 = some [0xD0, w - 0x30] ∧
      win1251Codepoint w = some (0x0410 + (w - 0xC0)) ∧
      utf8Encode (0x0410 + (w - 0xC0)) = [0xD0, w - 0x30] := by
  refine ⟨(koi8_to.getD 0 []).getD (b - 0x60) 0, ?_⟩
  interval_cases b <;> cases win32 <;> exact ⟨rfl, by decide, by decide, rfl, rfl, rfl⟩

/-- Witness for C11: the byte `0x60`, the letter U+042E: `0xDE` in
Windows-1251 and `0xD0, 0xAE` in UTF-8. -/
theorem koi8_to_rows_name_same_letter_witness :
    ∃ w, decodeCP false [0x60] CP_WIN1251 = some [w] ∧ 0xC0 ≤ w ∧ w ≤ 0xDF ∧
      decodeCP false [0x60] CP_UTF8 = some [0xD0, w - 0x30] ∧
      win1251Codepoint w = some (0x0410 + (w - 0xC0)) ∧
      utf8Encode (0x0410 + (w - 0xC0)) = [0xD0, w - 0x30] :=
  koi8_to_rows_name_same_letter false 0x60 (by decide) (by decide)

/-! ## Properties of the file name conversion -/

theorem findLastFrom_not_mem (c : Char) (xs : List Char) :
    ∀ (i : Nat) (acc : Option Nat), c ∉ xs → findLastFrom c xs i acc = acc := by
  induction xs with
  | nil => intro i acc _; rfl
  | cons x xs ih =>
    intro i acc h
    have hx : x ≠ c := fun e => h (by simp [e])
    have hxs : c ∉ xs := fun e => h (by simp [e])
    rw [findLastFrom, if_neg hx, ih _ _ hxs]

theorem findLastFrom_mem (c : Char) (xs : List Char) :
    ∀ (i : Nat) (acc : Option Nat), c ∈ xs →
      ∃ p, findLastFrom c xs i acc = some p ∧ i ≤ p ∧ p < i + xs.length := by
  induction xs with
  | nil => intro i acc h; simp at h
  | cons x xs ih =>
    intro i acc h
    rw [findLastFrom]
    by_cases hxs : c ∈ xs
    · obtain ⟨p, hp, h1, h2⟩ := ih (i + 1) (if x = c then some i else acc) hxs
      exact ⟨p, hp, by omega, by simp only [List.length_cons]; omega⟩
    · have hx : x = c := by
        rcases List.mem_cons.mp h with e | e
        · exact e.symm
        · exact absurd e hxs
      rw [findLastFrom_not_mem c xs _ _ hxs, if_pos hx]
      exact ⟨i, rfl, by omega, by simp only [List.length_cons]; omega⟩

/-- A name with a period has its last period at an index inside the name. -/
theorem find_last_of_mem (s : List Char) (c : Char) (h : c ∈ s) :
    find_last_of s c < s.length := by
  obtain ⟨p, hp, _, h2⟩ := findLastFrom_mem c s 0 none h
  unfold find_last_of
  rw [hp]
  simpa using h2

/-- A name without a period: `find_last_of` gives `npos`, which the `int`
variable `periodPos` holds as `-1`. -/
theorem find_last_of_not_mem (s : List Char) (c : Char) (h : c ∉ s) :
    find_last_of s c = 2 ^ 64 - 1 ∧ toInt32 (find_last_of s c) = -1 := by
  have e : find_last_of s c = 2 ^ 64 - 1 := by
    unfold find_last_of
    rw [findLastFrom_not_mem c s 0 none h]
  refine ⟨e, ?_⟩
  rw [e]
  decide

/-- For a name that holds a period (and is shorter than `2 ^ 31`
characters) `makeRkDosFileName` keeps at most 10 characters before the last
period and at most 3 after it: the result has at most 14 characters. -/
theorem makeRkDosFileName_with_period (name : List Char) (h : '.' ∈ name)
    (hl : name.length < 2 ^ 31) :
    ∃ base ext, base.length ≤ 10 ∧ ext.length ≤ 3 ∧
      makeRkDosFileName name =
        some ((if ext ≠ [] then base ++ ['.'] ++ ext else base).map cleanChar) ∧
      ((if ext ≠ [] then base ++ ['.'] ++ ext else base).map cleanChar).length ≤ 14 := by
  have hp := find_last_of_mem name '.' h
  obtain ⟨p, hpe⟩ : ∃ p, find_last_of name '.' = p := ⟨_, rfl⟩
  rw [hpe] at hp
  have e1 : toInt32 p = (p : Int) := by
    unfold toInt32
    have : p % 2 ^ 32 = p := by omega
    rw [this, if_pos (by omega)]
  have e2 : toSizeT (min (p : Int) 10) = min p 10 := by
    unfold toSizeT
    omega
  have e3 : toSizeT ((p : Int) + 1) = p + 1 := by
    unfold toSizeT
    omega
  refine ⟨name.take (min p 10), (name.drop (p + 1)).take 3, ?_, ?_, ?_, ?_⟩
  · rw [List.length_take]
    omega
  · rw [List.length_take]
    omega
  · unfold makeRkDosFileName
    simp only [hpe, e1, e2, e3]
    unfold substr
    rw [if_neg (by omega), if_neg (by omega)]
    simp only [List.drop_zero]
  · split_ifs
    · simp only [List.length_map, List.length_append, List.length_take, List.length_cons,
        List.length_nil]
      omega
    · simp only [List.length_map, List.length_take]
      omega

/-- For a name without a period `makeRkDosFileName` keeps the whole name,
however long, and appends a period and the first three characters of the
name. -/
theorem makeRkDosFileName_without_period (name : List Char) (h : '.' ∉ name)
    (hl : name.length < 2 ^ 64) :
    makeRkDosFileName name =
      some ((if name.take 3 ≠ [] then name ++ ['.'] ++ name.take 3 else name).map cleanChar) := by
  obtain ⟨_, e⟩ := find_last_of_not_mem name '.' h
  have e2 : toSizeT (min (-1 : Int) 10) = 2 ^ 64 - 1 := by decide
  have e3 : toSizeT ((-1 : Int) + 1) = 0 := by decide
  unfold makeRkDosFileName
  simp only [e, e2, e3]
  unfold substr
  rw [if_neg (by omega), if_neg (by omega)]
  simp only [List.drop_zero]
  rw [List.take_of_length_le (show name.length ≤ 2 ^ 64 - 1 by omega)]

/-- C12 (the code at the failing input): the 11-character name
`ABCDEFGHIJK`, which has no period, is returned as `ABCDEFGHIJK.ABC`:
15 characters, with a base of 11 characters. -/
theorem makeRkDosFileName_no_period_too_long :
    makeRkDosFileName ['A', 'B', 'C', 'D', 'E', 'F', 'G', 'H', 'I', 'J', 'K'] =
        some ['A', 'B', 'C', 'D', 'E', 'F', 'G', 'H', 'I', 'J', 'K', '.', 'A', 'B', 'C'] ∧
      ∃ r, makeRkDosFileName ['A', 'B', 'C', 'D', 'E', 'F', 'G', 'H', 'I', 'J', 'K'] = some r
        ∧ 14 < r.length := by
  refine ⟨by decide,
    ['A', 'B', 'C', 'D', 'E', 'F', 'G', 'H', 'I', 'J', 'K', '.', 'A', 'B', 'C'],
    by decide, by decide⟩

end Rkdisk
